import Mathlib

/-!
Verification development for the cashflow expense tracker.

The Rust sources are shallowly embedded:
`chrono::NaiveDate` becomes the `Date` structure (year/month/day with the
validity invariant that `NaiveDate` maintains by construction), `f64`
amounts are modelled as `Int`, `u64` ids as `Nat`, and fallible
operations return `Option`/`Except`.  The chronological order on
`NaiveDate` is modelled through the order-preserving injection `Date.key`.
-/

namespace Cashflow

/-- Proleptic-Gregorian leap-year test, as used by chrono. -/
def isLeap (y : Int) : Bool :=
  y % 4 == 0 && (y % 100 != 0 || y % 400 == 0)

/-- Number of days of month `m` (1-12) in year `y`. -/
def daysInMonth (y : Int) (m : Nat) : Nat :=
  if m = 2 then (if isLeap y then 29 else 28)
  else if m = 4 ∨ m = 6 ∨ m = 9 ∨ m = 11 then 30
  else 31

theorem daysInMonth_ge (y : Int) (m : Nat) : 28 ≤ daysInMonth y m := by
  unfold daysInMonth; split
  · split <;> omega
  · split <;> omega

theorem daysInMonth_le (y : Int) (m : Nat) : daysInMonth y m ≤ 31 := by
  unfold daysInMonth; split
  · split <;> omega
  · split <;> omega

/-- Model of `chrono::NaiveDate`: a valid proleptic-Gregorian calendar
date.  The validity constraints are maintained by `NaiveDate`'s smart
constructors in Rust, so they are part of the type here. -/
structure Date where
  year : Int
  month : Nat
  day : Nat
  month_ge : 1 ≤ month
  month_le : month ≤ 12
  day_ge : 1 ≤ day
  day_le : day ≤ daysInMonth year month

theorem Date.ext' {a b : Date} (hy : a.year = b.year) (hm : a.month = b.month)
    (hd : a.day = b.day) : a = b := by
  cases a; cases b; simp only at hy hm hd; subst hy; subst hm; subst hd; rfl

instance : DecidableEq Date := fun a b =>
  if h : a.year = b.year ∧ a.month = b.month ∧ a.day = b.day then
    .isTrue (Date.ext' h.1 h.2.1 h.2.2)
  else
    .isFalse (fun he => h (by cases he; exact ⟨rfl, rfl, rfl⟩))

/-- Order-preserving injection of valid dates into `Int`; chronological
comparison of `NaiveDate`s is comparison of keys. -/
def Date.key (x : Date) : Int :=
  416 * x.year + 32 * (x.month : Int) + (x.day : Int)

theorem Date.key_inj {a b : Date} (h : a.key = b.key) : a = b := by
  have hma := a.month_ge; have hmb := b.month_ge
  have hma2 := a.month_le; have hmb2 := b.month_le
  have hda := a.day_ge; have hdb := b.day_ge
  have hda2 := a.day_le; have hdb2 := b.day_le
  have h31a := daysInMonth_le a.year a.month
  have h31b := daysInMonth_le b.year b.month
  unfold Date.key at h
  apply Date.ext' <;> omega

/-- Model of `NaiveDate::from_ymd_opt`. -/
def fromYmd (y : Int) (m d : Nat) : Option Date :=
  if h : 1 ≤ m ∧ m ≤ 12 ∧ 1 ≤ d ∧ d ≤ daysInMonth y m then
    some ⟨y, m, d, h.1, h.2.1, h.2.2.1, h.2.2.2⟩
  else
    none

theorem fromYmd_pos (y : Int) (m d : Nat) (h1 : 1 ≤ m) (h2 : m ≤ 12)
    (h3 : 1 ≤ d) (h4 : d ≤ daysInMonth y m) :
    fromYmd y m d = some ⟨y, m, d, h1, h2, h3, h4⟩ := by
  unfold fromYmd
  rw [dif_pos ⟨h1, h2, h3, h4⟩]

/-- Calendar successor of a date (one day later). -/
def Date.succ (x : Date) : Date :=
  if h : x.day < daysInMonth x.year x.month then
    ⟨x.year, x.month, x.day + 1, x.month_ge, x.month_le, by omega, h⟩
  else if h2 : x.month < 12 then
    ⟨x.year, x.month + 1, 1, by omega, by omega, le_refl 1,
      le_trans (by omega) (daysInMonth_ge x.year (x.month + 1))⟩
  else
    ⟨x.year + 1, 1, 1, le_refl 1, by omega, le_refl 1,
      le_trans (by omega) (daysInMonth_ge (x.year + 1) 1)⟩

/-- Adding `n` days to a date (`Duration::days(n)` on a `NaiveDate`). -/
def addDays (n : Nat) (x : Date) : Date :=
  match n with
  | 0 => x
  | n + 1 => addDays n x.succ

theorem Date.key_succ_gt (x : Date) : x.key < x.succ.key := by
  have hma := x.month_ge; have hma2 := x.month_le
  have hda := x.day_ge; have hda2 := x.day_le
  have h31 := daysInMonth_le x.year x.month
  unfold Date.succ
  split
  · unfold Date.key; simp only; omega
  · split <;> (unfold Date.key; simp only; omega)

theorem key_addDays_ge (n : Nat) (x : Date) : x.key + n ≤ (addDays n x).key := by
  induction n generalizing x with
  | zero => simp [addDays]
  | succ k ih =>
    have h1 := Date.key_succ_gt x
    have h2 := ih x.succ
    simp only [addDays]
    omega

/-- The successor is the least valid date strictly later than `x`. -/
theorem Date.succ_key_le_of_lt {a b : Date} (h : a.key < b.key) :
    a.succ.key ≤ b.key := by
  have hma := a.month_ge; have hma2 := a.month_le
  have hda := a.day_ge; have hda2 := a.day_le
  have h31a := daysInMonth_le a.year a.month
  have hmb := b.month_ge; have hmb2 := b.month_le
  have hdb := b.day_ge; have hdb2 := b.day_le
  have h31b := daysInMonth_le b.year b.month
  unfold Date.key at h ⊢
  unfold Date.succ
  split
  · simp only; omega
  · rename_i hfull
    by_cases hy : b.year = a.year
    · by_cases hm : b.month = a.month
      · exfalso
        have : daysInMonth b.year b.month = daysInMonth a.year a.month := by
          rw [hy, hm]
        omega
      · split <;> (simp only; omega)
    · split <;> (simp only; omega)

theorem Date.succ_key_mono {a b : Date} (h : a.key ≤ b.key) :
    a.succ.key ≤ b.succ.key := by
  rcases lt_or_eq_of_le h with hlt | heq
  · exact le_trans (Date.succ_key_le_of_lt hlt) (le_of_lt (Date.key_succ_gt b))
  · rw [Date.key_inj heq]

theorem key_addDays_mono (n : Nat) {a b : Date} (h : a.key ≤ b.key) :
    (addDays n a).key ≤ (addDays n b).key := by
  induction n generalizing a b with
  | zero => simpa [addDays] using h
  | succ k ih => simpa only [addDays] using ih (Date.succ_key_mono h)

/-- Recurrence frequency of a recurring expense (src/model/expense.rs). -/
inductive Recurrence where
  | Daily
  | Weekly
  | Monthly
  | Yearly
deriving DecidableEq

/-- Model of `Recurrence::from_index` (src/model/expense.rs). -/
def Recurrence.from_index (index : Nat) : Recurrence :=
  match index with
  | 0 => .Daily
  | 1 => .Weekly
  | 2 => .Monthly
  | _ => .Yearly

/-- Model of `Recurrence::next_date` (src/model/expense.rs, lines 170-190).
`Duration::days(1)` and `Duration::weeks(1)` add 1 resp. 7 days, and the
`unwrap_or` fallbacks add 30 resp. 365 days. -/
def Recurrence.next_date (r : Recurrence) (x : Date) : Date :=
  match r with
  | .Daily => addDays 1 x
  | .Weekly => addDays 7 x
  | .Monthly =>
    if x.month = 12 then
      (fromYmd (x.year + 1) 1 (min x.day 28)).getD (addDays 30 x)
    else
      (fromYmd x.year (x.month + 1) (min x.day 28)).getD (addDays 30 x)
  | .Yearly =>
    (fromYmd (x.year + 1) x.month (min x.day 28)).getD (addDays 365 x)

theorem min28_ge (x : Date) : 1 ≤ min x.day 28 := by
  have := x.day_ge; omega

theorem min28_le (y : Int) (m : Nat) (x : Date) : min x.day 28 ≤ daysInMonth y m := by
  have := daysInMonth_ge y m; omega

/-- In the `Monthly` branch with `month ≠ 12`, the target date is always
constructible, so `next_date` moves to the next month with the day capped
at 28. -/
theorem next_date_monthly (x : Date) (h : x.month ≠ 12) :
    Recurrence.next_date .Monthly x =
      ⟨x.year, x.month + 1, min x.day 28, by omega,
        by have := x.month_le; omega, min28_ge x, min28_le x.year (x.month + 1) x⟩ := by
  unfold Recurrence.next_date
  rw [if_neg h, fromYmd_pos]
  rfl

/-- In the `Monthly` branch with `month = 12`, `next_date` wraps to
January of the following year with the day capped at 28. -/
theorem next_date_monthly_dec (x : Date) (h : x.month = 12) :
    Recurrence.next_date .Monthly x =
      ⟨x.year + 1, 1, min x.day 28, le_refl 1, by omega, min28_ge x,
        min28_le (x.year + 1) 1 x⟩ := by
  unfold Recurrence.next_date
  rw [if_pos h, fromYmd_pos]
  rfl

/-- The `Yearly` target date is always constructible. -/
theorem next_date_yearly (x : Date) :
    Recurrence.next_date .Yearly x =
      ⟨x.year + 1, x.month, min x.day 28, x.month_ge, x.month_le, min28_ge x,
        min28_le (x.year + 1) x.month x⟩ := by
  show (fromYmd (x.year + 1) x.month (min x.day 28)).getD (addDays 365 x) = _
  rw [fromYmd_pos]
  rfl

/-- Every `next_date` step is strictly later than its input. -/
theorem key_next_date_gt (r : Recurrence) (x : Date) :
    x.key < (r.next_date x).key := by
  have hda := x.day_ge; have hda2 := x.day_le
  have h31 := daysInMonth_le x.year x.month
  cases r with
  | Daily => have := key_addDays_ge 1 x; simp only [Recurrence.next_date]; omega
  | Weekly => have := key_addDays_ge 7 x; simp only [Recurrence.next_date]; omega
  | Monthly =>
    by_cases h : x.month = 12
    · rw [next_date_monthly_dec x h]; unfold Date.key; simp only; omega
    · rw [next_date_monthly x h]; unfold Date.key; simp only; omega
  | Yearly =>
    rw [next_date_yearly x]; unfold Date.key; simp only; omega

/-- Each `next_date` step is monotone in its starting date. -/
theorem key_next_date_mono (r : Recurrence) {a b : Date} (h : a.key ≤ b.key) :
    (r.next_date a).key ≤ (r.next_date b).key := by
  have hmb := b.month_ge; have hmb2 := b.month_le
  have hma := a.month_ge; have hma2 := a.month_le
  have hda := a.day_ge; have hda2 := a.day_le
  have hdb := b.day_ge; have hdb2 := b.day_le
  have h31a := daysInMonth_le a.year a.month
  have h31b := daysInMonth_le b.year b.month
  have hk : 416 * a.year + 32 * (a.month : Int) + (a.day : Int) ≤
      416 * b.year + 32 * (b.month : Int) + (b.day : Int) := h
  cases r with
  | Daily => exact key_addDays_mono 1 h
  | Weekly => exact key_addDays_mono 7 h
  | Monthly =>
    by_cases hA : a.month = 12 <;> by_cases hB : b.month = 12
    · rw [next_date_monthly_dec a hA, next_date_monthly_dec b hB]
      unfold Date.key; simp only; omega
    · rw [next_date_monthly_dec a hA, next_date_monthly b hB]
      unfold Date.key; simp only; omega
    · rw [next_date_monthly a hA, next_date_monthly_dec b hB]
      unfold Date.key; simp only; omega
    · rw [next_date_monthly a hA, next_date_monthly b hB]
      unfold Date.key; simp only; omega
  | Yearly =>
    rw [next_date_yearly a, next_date_yearly b]
    unfold Date.key; simp only; omega

/-- The `while next <= today` loop body of
`App::generate_recurring_expenses` (src/app.rs, lines 321-335): the list
of generated occurrence dates starting from candidate `next`. -/
def genOccurrences (r : Recurrence) (today next : Date) : List Date :=
  if next.key ≤ today.key then
    next :: genOccurrences r today (r.next_date next)
  else
    []
termination_by (today.key + 1 - next.key).toNat
decreasing_by
  have h2 := key_next_date_gt r next
  rename_i h
  omega

theorem genOccurrences_unfold (r : Recurrence) (today next : Date) :
    genOccurrences r today next =
      if next.key ≤ today.key then
        next :: genOccurrences r today (r.next_date next)
      else [] := by
  rw [genOccurrences]

theorem genOccurrences_mem_le (r : Recurrence) (today next : Date) :
    ∀ d ∈ genOccurrences r today next, d.key ≤ today.key := by
  generalize hn : (today.key + 1 - next.key).toNat = n
  induction n using Nat.strong_induction_on generalizing next with
  | _ n ih =>
    rw [genOccurrences_unfold]
    split
    · rename_i hle
      intro d hd
      rcases List.mem_cons.mp hd with h | h
      · subst h; exact hle
      · have hgt := key_next_date_gt r next
        exact ih ((today.key + 1 - (r.next_date next).key).toNat)
          (by omega) (r.next_date next) rfl d h
    · intro d hd; simp at hd

theorem genOccurrences_eq_nil_iff (r : Recurrence) (today next : Date) :
    genOccurrences r today next = [] ↔ today.key < next.key := by
  rw [genOccurrences_unfold]
  split
  · rename_i h; simp; omega
  · rename_i h; simp; omega

/-- A nonempty occurrence run contains a date whose `next_date` lies
strictly beyond `today` (the point where the `while` loop stopped). -/
theorem genOccurrences_last (r : Recurrence) (today next : Date)
    (h : next.key ≤ today.key) :
    ∃ g ∈ genOccurrences r today next, today.key < (r.next_date g).key := by
  generalize hn : (today.key + 1 - next.key).toNat = n
  induction n using Nat.strong_induction_on generalizing next with
  | _ n ih =>
    rw [genOccurrences_unfold, if_pos h]
    by_cases h2 : (r.next_date next).key ≤ today.key
    · have hgt := key_next_date_gt r next
      obtain ⟨g, hg, hgk⟩ := ih ((today.key + 1 - (r.next_date next).key).toNat)
        (by omega) (r.next_date next) h2 rfl
      exact ⟨g, List.mem_cons_of_mem _ hg, hgk⟩
    · exact ⟨next, List.mem_cons_self _ _, by omega⟩

/-- Iterated application of `next_date` (`n` further occurrences after
the anchor). -/
def nextIter (r : Recurrence) (n : Nat) (s : Date) : Date :=
  match n with
  | 0 => s
  | n + 1 => nextIter r n (r.next_date s)

theorem key_nextIter_ge (r : Recurrence) (n : Nat) (s : Date) :
    s.key ≤ (nextIter r n s).key := by
  induction n generalizing s with
  | zero => simp [nextIter]
  | succ k ih =>
    have h1 := key_next_date_gt r s
    have h2 := ih (r.next_date s)
    simp only [nextIter]
    omega

/-- Completeness of the loop: every iterate of `next_date` that does not
exceed `today` is generated, in particular the one landing exactly on
`today`. -/
theorem genOccurrences_complete (r : Recurrence) (today s : Date) (n : Nat)
    (h : (nextIter r n s).key ≤ today.key) :
    nextIter r n s ∈ genOccurrences r today s := by
  induction n generalizing s with
  | zero =>
    simp only [nextIter] at h ⊢
    rw [genOccurrences_unfold, if_pos h]
    exact List.mem_cons_self _ _
  | succ k ih =>
    have hs : s.key ≤ today.key := by
      have h1 := key_next_date_gt r s
      have h2 := key_nextIter_ge r k (r.next_date s)
      simp only [nextIter] at h
      omega
    simp only [nextIter] at h ⊢
    rw [genOccurrences_unfold, if_pos hs]
    exact List.mem_cons_of_mem _ (ih (r.next_date s) h)

/-- Rust `String`s that the code inspects character-wise (descriptions,
category names, search queries) are modelled as their character
sequences. -/
abbrev Str := List Char

/-- Model of `str::to_lowercase` (character-wise lowering). -/
def strLower (s : Str) : Str := s.map Char.toLower

/-- Model of `str::contains` on strings: the needle occurs as a
contiguous substring of the haystack. -/
def strContainsSub : Str → Str → Bool
  | [], needle => needle.isEmpty
  | c :: t, needle => needle.isPrefixOf (c :: t) || strContainsSub t needle

/-- Expense category (src/model/expense.rs). -/
inductive Category where
  | Food
  | Transport
  | Rent
  | Utilities
  | Entertainment
  | Shopping
  | Health
  | Education
  | Subscriptions
  | Other (s : Str)
deriving DecidableEq

/-- Model of `Category::from_index` (src/model/expense.rs). -/
def Category.from_index (index : Nat) (custom : Option Str) : Category :=
  match index with
  | 0 => .Food
  | 1 => .Transport
  | 2 => .Rent
  | 3 => .Utilities
  | 4 => .Entertainment
  | 5 => .Shopping
  | 6 => .Health
  | 7 => .Education
  | 8 => .Subscriptions
  | _ => .Other (custom.getD (("").data))

/-- Model of the `Display` implementation for `Category`. -/
def Category.display (c : Category) : Str :=
  match c with
  | .Food => ("Food").data
  | .Transport => ("Transport").data
  | .Rent => ("Rent").data
  | .Utilities => ("Utilities").data
  | .Entertainment => ("Entertainment").data
  | .Shopping => ("Shopping").data
  | .Health => ("Health").data
  | .Education => ("Education").data
  | .Subscriptions => ("Subscriptions").data
  | .Other s => if s.isEmpty then ("Other").data else ("Other(").data ++ s ++ (")").data

/-- Model of the `Expense` record (src/model/expense.rs).  The `f64`
amount is modelled as `Int`; the `u64` id as `Nat`. -/
structure Expense where
  id : Nat
  amount : Int
  category : Category
  description : Str
  date : Date
  is_recurring : Bool
  recurrence : Option Recurrence
deriving DecidableEq

/-- Model of `storage::next_id` (src/storage/csv_store.rs, lines 128-130):
`expenses.iter().map(|e| e.id).max().unwrap_or(0) + 1`. -/
def next_id (expenses : List Expense) : Nat :=
  ((expenses.map (fun e => e.id)).max?.getD 0) + 1

/-- Model of `storage::import_csv`'s row loop (src/storage/csv_store.rs,
lines 110-126).  The csv reader's per-row `deserialize` results are the
`rows` input; the Rust loop mutates `existing` in place, so the possibly
partially-extended list is returned together with the `Result`. -/
def importCsvGo (rows : List (Except String Expense)) (acc : List Expense)
    (next count : Nat) : List Expense × Except String Nat :=
  match rows with
  | [] => (acc, .ok count)
  | .error msg :: _ => (acc, .error msg)
  | .ok e :: rest => importCsvGo rest (acc ++ [{ e with id := next }]) (next + 1) (count + 1)

/-- Model of `storage::import_csv` (src/storage/csv_store.rs). -/
def import_csv (rows : List (Except String Expense)) (existing : List Expense) :
    List Expense × Except String Nat :=
  importCsvGo rows existing (next_id existing) 0

/-- Template-matching predicate used by
`App::generate_recurring_expenses` to find the latest materialized
occurrence of a template (src/app.rs, lines 312-316). -/
def matchesTpl (t e : Expense) : Bool :=
  e.description == t.description && e.category == t.category && e.amount == t.amount

/-- Model of `Iterator::max` over dates (running maximum; on ties the
later element is kept, which agrees with Rust's `max`). -/
def dateMaxFrom (acc : Date) (l : List Date) : Date :=
  match l with
  | [] => acc
  | d :: ds => dateMaxFrom (if acc.key ≤ d.key then d else acc) ds

def dateMax? (l : List Date) : Option Date :=
  match l with
  | [] => none
  | d :: ds => some (dateMaxFrom d ds)

/-- The `last_date` computation of `App::generate_recurring_expenses`
(src/app.rs, lines 309-319). -/
def lastDate (t : Expense) (expenses : List Expense) : Date :=
  (dateMax? ((expenses.filter (matchesTpl t)).map (fun e => e.date))).getD t.date

/-- The expenses pushed for one template: each generated date becomes a
fresh non-recurring expense cloning the template's amount, category and
description, with sequentially assigned ids (src/app.rs, lines 323-335). -/
def occExpenses (start : Nat) (t : Expense) (occ : List Date) : List Expense :=
  occ.enum.map (fun p =>
    { id := start + p.1, amount := t.amount, category := t.category,
      description := t.description, date := p.2, is_recurring := false,
      recurrence := none })

/-- The `for template in &recurring` loop of
`App::generate_recurring_expenses` (src/app.rs, lines 307-336); `acc` is
the `new_expenses` vector. -/
def genFold (expenses : List Expense) (today : Date) (templates : List Expense)
    (acc : List Expense) : List Expense :=
  match templates with
  | [] => acc
  | t :: ts =>
    match t.recurrence with
    | none => genFold expenses today ts acc
    | some r =>
      let occ := genOccurrences r today (r.next_date (lastDate t expenses))
      genFold expenses today ts (acc ++ occExpenses (next_id expenses + acc.length) t occ)

/-- The full list of expenses generated by one run of
`App::generate_recurring_expenses`. -/
def generatedExpenses (expenses : List Expense) (today : Date) : List Expense :=
  genFold expenses today
    (expenses.filter (fun e => e.is_recurring && e.recurrence.isSome)) []

/-- Model of `App::generate_recurring_expenses` (src/app.rs, lines
296-342) acting on the expense list, with `Local::now().date_naive()`
passed as `today`.  (When nothing is generated the source skips the
`extend`, which appends the empty list all the same.) -/
def generate_recurring_expenses (expenses : List Expense) (today : Date) :
    List Expense :=
  expenses ++ generatedExpenses expenses today

theorem dateMaxFrom_ge (l : List Date) (a : Date) :
    a.key ≤ (dateMaxFrom a l).key ∧ ∀ d ∈ l, d.key ≤ (dateMaxFrom a l).key := by
  induction l generalizing a with
  | nil => simp [dateMaxFrom]
  | cons d ds ih =>
    simp only [dateMaxFrom]
    by_cases had : a.key ≤ d.key
    · rw [if_pos had]
      refine ⟨le_trans had (ih d).1, ?_⟩
      intro x hx
      rcases List.mem_cons.mp hx with h | h
      · subst h; exact (ih x).1
      · exact (ih d).2 x h
    · rw [if_neg had]
      refine ⟨(ih a).1, ?_⟩
      intro x hx
      rcases List.mem_cons.mp hx with h | h
      · subst h; have := (ih a).1; omega
      · exact (ih a).2 x h

theorem dateMaxFrom_mem (l : List Date) (a : Date) :
    dateMaxFrom a l ∈ a :: l := by
  induction l generalizing a with
  | nil => simp [dateMaxFrom]
  | cons d ds ih =>
    simp only [dateMaxFrom]
    have := ih (if a.key ≤ d.key then d else a)
    rcases List.mem_cons.mp this with h | h
    · rw [h]; split
      · exact List.mem_cons_of_mem _ (List.mem_cons_self _ _)
      · exact List.mem_cons_self _ _
    · exact List.mem_cons_of_mem _ (List.mem_cons_of_mem _ h)

theorem lastDate_ge (t : Expense) (es : List Expense) (e : Expense)
    (he : e ∈ es) (hm : matchesTpl t e = true) :
    e.date.key ≤ (lastDate t es).key := by
  have hmem : e.date ∈ (es.filter (matchesTpl t)).map (fun x => x.date) :=
    List.mem_map.mpr ⟨e, List.mem_filter.mpr ⟨he, hm⟩, rfl⟩
  rcases hlist : (es.filter (matchesTpl t)).map (fun x => x.date) with _ | ⟨d, ds⟩
  · rw [hlist] at hmem; simp at hmem
  · rw [hlist] at hmem
    simp only [lastDate, hlist, dateMax?, Option.getD_some]
    rcases List.mem_cons.mp hmem with h | h
    · subst h; exact (dateMaxFrom_ge ds e.date).1
    · exact (dateMaxFrom_ge ds d).2 _ h

theorem lastDate_mem_of_matching (t : Expense) (es : List Expense) (e0 : Expense)
    (he0 : e0 ∈ es) (hm0 : matchesTpl t e0 = true) :
    ∃ e ∈ es, matchesTpl t e = true ∧ lastDate t es = e.date := by
  rcases hlist : (es.filter (matchesTpl t)).map (fun x => x.date) with _ | ⟨d, ds⟩
  · exfalso
    have hmem : e0.date ∈ (es.filter (matchesTpl t)).map (fun x => x.date) :=
      List.mem_map.mpr ⟨e0, List.mem_filter.mpr ⟨he0, hm0⟩, rfl⟩
    rw [hlist] at hmem; simp at hmem
  · simp only [lastDate, hlist, dateMax?, Option.getD_some]
    have : dateMaxFrom d ds ∈ (es.filter (matchesTpl t)).map (fun x => x.date) := by
      rw [hlist]; exact dateMaxFrom_mem ds d
    obtain ⟨e, hef, hed⟩ := List.mem_map.mp this
    exact ⟨e, (List.mem_filter.mp hef).1, (List.mem_filter.mp hef).2, hed.symm⟩

theorem matchesTpl_self (t : Expense) : matchesTpl t t = true := by
  simp [matchesTpl]

theorem matchesTpl_generated (t : Expense) (start : Nat) (occ : List Date)
    (e : Expense) (he : e ∈ occExpenses start t occ) :
    matchesTpl t e = true ∧ e.is_recurring = false ∧ e.recurrence = none ∧
      e.date ∈ occ := by
  obtain ⟨p, hp, hpe⟩ := List.mem_map.mp he
  subst hpe
  refine ⟨by simp [matchesTpl], rfl, rfl, ?_⟩
  exact List.snd_mem_of_mem_enumFrom hp

theorem genFold_acc_sub (es : List Expense) (today : Date) :
    ∀ (ts acc : List Expense) (e : Expense), e ∈ acc → e ∈ genFold es today ts acc := by
  intro ts
  induction ts with
  | nil => intro acc e he; exact he
  | cons t0 ts ih =>
    intro acc e he
    simp only [genFold]
    rcases t0.recurrence with _ | r
    · exact ih acc e he
    · exact ih _ e (List.mem_append_left _ he)

theorem genFold_mem (es : List Expense) (today : Date) :
    ∀ (ts acc : List Expense) (e : Expense), e ∈ genFold es today ts acc →
      e ∈ acc ∨ (e.is_recurring = false ∧ e.recurrence = none ∧
        ∃ t ∈ ts, ∃ r, t.recurrence = some r ∧
          e.date ∈ genOccurrences r today (r.next_date (lastDate t es))) := by
  intro ts
  induction ts with
  | nil => intro acc e he; exact Or.inl he
  | cons t0 ts ih =>
    intro acc e he
    simp only [genFold] at he
    rcases hrec : t0.recurrence with _ | r
    · rw [hrec] at he
      rcases ih acc e he with h | ⟨h1, h2, t, ht, hr⟩
      · exact Or.inl h
      · exact Or.inr ⟨h1, h2, t, List.mem_cons_of_mem _ ht, hr⟩
    · rw [hrec] at he
      rcases ih _ e he with h | ⟨h1, h2, t, ht, hr⟩
      · rcases List.mem_append.mp h with h | h
        · exact Or.inl h
        · obtain ⟨_, h1, h2, h3⟩ := matchesTpl_generated t0 _ _ e h
          exact Or.inr ⟨h1, h2, t0, List.mem_cons_self _ _, r, hrec, h3⟩
      · exact Or.inr ⟨h1, h2, t, List.mem_cons_of_mem _ ht, hr⟩

theorem genFold_chain_mem (es : List Expense) (today : Date) :
    ∀ (ts acc : List Expense) (t : Expense) (r : Recurrence), t ∈ ts →
      t.recurrence = some r →
      ∀ d ∈ genOccurrences r today (r.next_date (lastDate t es)),
        ∃ e ∈ genFold es today ts acc, matchesTpl t e = true ∧ e.date = d := by
  intro ts
  induction ts with
  | nil => intro acc t r ht; simp at ht
  | cons t0 ts ih =>
    intro acc t r ht hr d hd
    rcases List.mem_cons.mp ht with h | h
    · subst h
      simp only [genFold, hr]
      obtain ⟨k, hk, hkd⟩ := List.mem_iff_getElem.mp hd
      have hp : (k, d) ∈ (genOccurrences r today (r.next_date (lastDate t es))).enum := by
        rw [List.mk_mem_enum_iff_getElem?]
        rw [List.getElem?_eq_getElem hk, hkd]
      refine ⟨_, genFold_acc_sub es today ts _ _
        (List.mem_append_right acc (List.mem_map.mpr ⟨(k, d), hp, rfl⟩)), ?_, rfl⟩
      simp [matchesTpl]
    · simp only [genFold]
      rcases hrec0 : t0.recurrence with _ | r0
      · exact ih acc t r h hr d hd
      · exact ih _ t r h hr d hd

theorem genFold_nil_of_beyond (es2 : List Expense) (today : Date) :
    ∀ (ts acc : List Expense),
      (∀ t ∈ ts, ∀ r, t.recurrence = some r →
        today.key < (r.next_date (lastDate t es2)).key) →
      genFold es2 today ts acc = acc := by
  intro ts
  induction ts with
  | nil => intro acc _; rfl
  | cons t0 ts ih =>
    intro acc h
    rcases hrec : t0.recurrence with _ | r
    · simp only [genFold, hrec]
      exact ih acc (fun t ht => h t (List.mem_cons_of_mem _ ht))
    · have hempty : genOccurrences r today (r.next_date (lastDate t0 es2)) = [] :=
        (genOccurrences_eq_nil_iff _ _ _).mpr (h t0 (List.mem_cons_self _ _) r hrec)
      simp only [genFold, hrec, hempty]
      show genFold es2 today ts (acc ++ occExpenses _ t0 []) = acc
      show genFold es2 today ts (acc ++ []) = acc
      rw [List.append_nil]
      exact ih acc (fun t ht => h t (List.mem_cons_of_mem _ ht))

theorem generated_props (es : List Expense) (today : Date) :
    ∀ e ∈ generatedExpenses es today,
      e.is_recurring = false ∧ e.recurrence = none ∧ e.date.key ≤ today.key := by
  intro e he
  rcases genFold_mem es today _ [] e he with h | ⟨h1, h2, t, ht, r, hr, hd⟩
  · simp at h
  · exact ⟨h1, h2, genOccurrences_mem_le r today _ _ hd⟩

theorem generate_filter_eq (es : List Expense) (today : Date) :
    (generate_recurring_expenses es today).filter
        (fun e => e.is_recurring && e.recurrence.isSome) =
      es.filter (fun e => e.is_recurring && e.recurrence.isSome) := by
  show (es ++ generatedExpenses es today).filter _ = _
  rw [List.filter_append]
  have h : (generatedExpenses es today).filter
      (fun e => e.is_recurring && e.recurrence.isSome) = [] := by
    rw [List.filter_eq_nil_iff]
    intro e he
    have := (generated_props es today e he).1
    simp [this]
  rw [h, List.append_nil]

/-- After one materialization run, every template's latest matching
occurrence is past the point where another occurrence would be due. -/
theorem second_run_beyond (es : List Expense) (today : Date) (t : Expense)
    (ht : t ∈ es) (hflag : (t.is_recurring && t.recurrence.isSome) = true)
    (r : Recurrence) (hr : t.recurrence = some r) :
    today.key < (r.next_date (lastDate t (generate_recurring_expenses es today))).key := by
  have hself := matchesTpl_self t
  by_cases hc : (r.next_date (lastDate t es)).key ≤ today.key
  · -- the first run generated at least one occurrence; its last one
    -- bounds the template's new `last_date` from below
    obtain ⟨g, hg, hgk⟩ := genOccurrences_last r today _ hc
    have htpl : t ∈ es.filter (fun e => e.is_recurring && e.recurrence.isSome) :=
      List.mem_filter.mpr ⟨ht, hflag⟩
    obtain ⟨e1, he1, hm1, hd1⟩ :=
      genFold_chain_mem es today _ [] t r htpl hr g hg
    have hge : g.key ≤ (lastDate t (generate_recurring_expenses es today)).key := by
      have := lastDate_ge t (generate_recurring_expenses es today) e1
        (List.mem_append_right es he1) hm1
      rw [hd1] at this
      exact this
    have := key_next_date_mono r hge
    omega
  · -- the first run generated nothing, so `next_date(last_date)` was
    -- already beyond `today`, and `last_date` can only grow
    obtain ⟨e0, he0, hm0, hL⟩ := lastDate_mem_of_matching t es t ht hself
    have hge : (lastDate t es).key ≤
        (lastDate t (generate_recurring_expenses es today)).key := by
      have := lastDate_ge t (generate_recurring_expenses es today) e0
        (List.mem_append_left _ he0) hm0
      rw [hL]
      exact this
    have := key_next_date_mono r hge
    omega

theorem generate_recurring_idem (es : List Expense) (today : Date) :
    generate_recurring_expenses (generate_recurring_expenses es today) today =
      generate_recurring_expenses es today := by
  have hnil : generatedExpenses (generate_recurring_expenses es today) today = [] := by
    unfold generatedExpenses
    rw [generate_filter_eq]
    apply genFold_nil_of_beyond
    intro t htf r hr
    have hm := List.mem_filter.mp htf
    exact second_run_beyond es today t hm.1 hm.2 r hr
  show generate_recurring_expenses es today ++ _ = generate_recurring_expenses es today
  rw [hnil, List.append_nil]

theorem occExpenses_ids (start : Nat) (t : Expense) (occ : List Date) :
    (occExpenses start t occ).map (fun e => e.id) = List.range' start occ.length := by
  unfold occExpenses
  rw [List.map_map]
  show occ.enum.map ((fun k => start + k) ∘ Prod.fst) = _
  rw [← List.map_map, List.enum_map_fst, ← List.range'_eq_map_range]

theorem occExpenses_length (start : Nat) (t : Expense) (occ : List Date) :
    (occExpenses start t occ).length = occ.length := by
  simp [occExpenses]

theorem genFold_ids (es : List Expense) (today : Date) :
    ∀ (ts acc : List Expense),
      acc.map (fun e => e.id) = List.range' (next_id es) acc.length →
      (genFold es today ts acc).map (fun e => e.id) =
        List.range' (next_id es) (genFold es today ts acc).length := by
  intro ts
  induction ts with
  | nil => intro acc h; exact h
  | cons t0 ts ih =>
    intro acc h
    rcases hrec : t0.recurrence with _ | r
    · simp only [genFold, hrec]
      exact ih acc h
    · simp only [genFold, hrec]
      apply ih
      rw [List.map_append, List.length_append, h, occExpenses_ids,
        occExpenses_length]
      have hlen : acc.length = (List.range' (next_id es) acc.length).length := by
        rw [List.length_range']
      rw [List.range'_append_1, Nat.add_comm]

/-- Model of `FormState` (src/app.rs, lines 81-108).  The text inputs
that `to_expense` merely hands to library parsers stay abstract strings;
the parsers themselves are passed as parameters to `to_expense`.  The
UI-only `active_field` cursor is omitted. -/
structure FormState where
  amount_input : Str
  category_index : Nat
  custom_category : Str
  description_input : Str
  date_input : Str
  is_recurring : Bool
  recurrence_index : Nat
  editing_id : Option Nat

/-- Model of `FormState::to_expense` (src/app.rs, lines 131-160).
`parseAmount` models `str::parse::<f64>` (with `f64` as `Int`) and
`parseDate` models `NaiveDate::parse_from_str` with format `%Y-%m-%d`. -/
def FormState.to_expense (parseAmount : Str → Option Int)
    (parseDate : Str → Option Date) (f : FormState) (id : Nat) : Option Expense :=
  match parseAmount f.amount_input with
  | none => none
  | some amount =>
    if amount ≤ 0 then none
    else
      let category := Category.from_index f.category_index
        (if f.category_index = 9 then some f.custom_category else none)
      match parseDate f.date_input with
      | none => none
      | some date =>
        let recurrence :=
          if f.is_recurring then some (Recurrence.from_index f.recurrence_index)
          else none
        some ⟨id, amount, category, f.description_input, date, f.is_recurring,
          recurrence⟩

/-- The slice of `App` state (src/app.rs, lines 163-185) that the
verified operations read and write. -/
structure AppState where
  expenses : List Expense
  expense_table_index : Nat
  search_query : Str
  filtered_indices : List Nat
  show_recurring_only : Bool
deriving DecidableEq

/-- Placeholder expense used to give the total model of Rust's
(in-range) index expression `self.expenses[i]`. -/
def defaultExpense : Expense :=
  ⟨0, 0, .Other (("").data), ("").data,
    ⟨1970, 1, 1, by decide, by decide, by decide, by decide⟩, false, none⟩

/-- Date sort key of record `i`, as read by the sort comparator
`self.expenses[*b].date.cmp(&self.expenses[*a].date)` (src/app.rs,
lines 240-242). -/
def dateKeyAt (es : List Expense) (i : Nat) : Int :=
  ((es.getD i defaultExpense).date).key

/-- The filter closure of `App::update_filtered_indices` (src/app.rs,
lines 226-235), applied to an already-lowercased `query`. -/
def sourcePred (recurringOnly : Bool) (query : Str) (e : Expense) : Bool :=
  if recurringOnly && !e.is_recurring then false
  else if query.isEmpty then true
  else strContainsSub (strLower e.description) query ||
    strContainsSub (strLower e.category.display) query

/-- The lowercased search query (`self.search_query.to_lowercase()`). -/
def queryOf (a : AppState) : Str := strLower a.search_query

/-- The `enumerate/filter/map` stage of `App::update_filtered_indices`. -/
def filteredOf (a : AppState) : List Nat :=
  (a.expenses.enum.filter
    (fun p => sourcePred a.show_recurring_only (queryOf a) p.2)).map
    (fun p => p.1)

/-- The stable sort stage (date descending); Rust's `slice::sort_by` is a
stable sort, modelled by `List.mergeSort`. -/
def sortedOf (a : AppState) : List Nat :=
  (filteredOf a).mergeSort (fun i j => decide (dateKeyAt a.expenses j ≤ dateKeyAt a.expenses i))

/-- Model of `App::update_filtered_indices` (src/app.rs, lines 220-247),
including the final cursor clamp. -/
def update_filtered_indices (a : AppState) : AppState :=
  { a with
    filtered_indices := sortedOf a,
    expense_table_index :=
      if (sortedOf a).length ≤ a.expense_table_index && !(sortedOf a).isEmpty then
        (sortedOf a).length - 1
      else a.expense_table_index }

/-- Model of `App::add_expense` (src/app.rs, lines 255-259); persistence
(`save`) has no effect on the in-memory state. -/
def add_expense (a : AppState) (e : Expense) : AppState :=
  update_filtered_indices { a with expenses := a.expenses ++ [e] }

/-- Model of `App::update_expense` (src/app.rs, lines 261-267).  The
boolean records whether the body ran (and hence whether `save` was
called). -/
def update_expense (a : AppState) (id : Nat) (updated : Expense) : AppState × Bool :=
  match a.expenses.findIdx? (fun e => e.id == id) with
  | some pos =>
    (update_filtered_indices { a with expenses := a.expenses.set pos updated }, true)
  | none => (a, false)

/-- Model of `App::import_from_csv` (src/app.rs, lines 287-294).  On a
row error the `?` operator returns before `update_filtered_indices` and
`save`, but `self.expenses` has already been extended in place by
`storage::import_csv`. -/
def import_from_csv (a : AppState) (rows : List (Except String Expense)) :
    AppState × Except String Nat :=
  match import_csv rows a.expenses with
  | (es2, .error msg) => ({ a with expenses := es2 }, .error msg)
  | (es2, .ok n) => (update_filtered_indices { a with expenses := es2 }, .ok n)

theorem sublist_pair_antisymm {l : List Nat} (hnd : l.Nodup) {x y : Nat}
    (h1 : List.Sublist [x, y] l) (h2 : List.Sublist [y, x] l) : x = y := by
  induction l with
  | nil => exact absurd (List.sublist_nil.mp h1) (by simp)
  | cons c t ih =>
    have hc : c ∉ t := (List.nodup_cons.mp hnd).1
    have hnd2 : t.Nodup := (List.nodup_cons.mp hnd).2
    cases h1 with
    | cons _ h1t =>
      cases h2 with
      | cons _ h2t => exact ih hnd2 h1t h2t
      | cons₂ _ h2t =>
        -- here y = c, yet [x, y] <+ t forces y ∈ t
        exact absurd (h1t.subset (List.mem_cons_of_mem _ (List.mem_cons_self _ _))) hc
    | cons₂ _ h1t =>
      cases h2 with
      | cons _ h2t =>
        exact absurd (h2t.subset (List.mem_cons_of_mem _ (List.mem_cons_self _ _))) hc
      | cons₂ _ h2t => rfl

theorem pair_sublist_of_pairwise_lt {l : List Nat} (hp : l.Pairwise (fun a b => a < b))
    {x y : Nat} (hx : x ∈ l) (hy : y ∈ l) (hxy : x < y) : List.Sublist [x, y] l := by
  induction l with
  | nil => simp at hx
  | cons c t ih =>
    have hct : ∀ z ∈ t, c < z := fun z hz => List.rel_of_pairwise_cons hp hz
    rcases List.mem_cons.mp hx with hxc | hxt
    · subst hxc
      have hyt : y ∈ t := by
        rcases List.mem_cons.mp hy with hyc | hyt
        · omega
        · exact hyt
      exact List.cons_sublist_cons.mpr (List.singleton_sublist.mpr hyt)
    · have hyt : y ∈ t := by
        rcases List.mem_cons.mp hy with hyc | hyt
        · exfalso; have := hct x hxt; omega
        · exact hyt
      exact List.Sublist.cons c (ih (List.pairwise_cons.mp hp).2 hxt hyt)

theorem filteredOf_pairwise_lt (a : AppState) :
    (filteredOf a).Pairwise (fun i j => i < j) := by
  unfold filteredOf
  rw [List.pairwise_map]
  apply List.Pairwise.filter
  have h1 : (a.expenses.enum.map Prod.fst).Pairwise (fun i j => i < j) := by
    rw [List.enum_map_fst]
    exact List.pairwise_lt_range _
  exact (List.pairwise_map.mp h1)

theorem sortedOf_pairwise (a : AppState) :
    (sortedOf a).Pairwise (fun i j =>
      dateKeyAt a.expenses j < dateKeyAt a.expenses i ∨
        (dateKeyAt a.expenses i = dateKeyAt a.expenses j ∧ i < j)) := by
  have htrans : ∀ (i j k : Nat),
      decide (dateKeyAt a.expenses j ≤ dateKeyAt a.expenses i) = true →
      decide (dateKeyAt a.expenses k ≤ dateKeyAt a.expenses j) = true →
      decide (dateKeyAt a.expenses k ≤ dateKeyAt a.expenses i) = true := by
    intro i j k h1 h2
    simp only [decide_eq_true_eq] at h1 h2 ⊢
    omega
  have htotal : ∀ (i j : Nat),
      (decide (dateKeyAt a.expenses j ≤ dateKeyAt a.expenses i) ||
        decide (dateKeyAt a.expenses i ≤ dateKeyAt a.expenses j)) = true := by
    intro i j
    simp only [Bool.or_eq_true, decide_eq_true_eq]
    omega
  have hsorted := List.sorted_mergeSort htrans htotal (filteredOf a)
  have hplt := filteredOf_pairwise_lt a
  have hnd : (filteredOf a).Nodup := hplt.imp (fun h => Nat.ne_of_lt h)
  have hndout : (sortedOf a).Nodup :=
    (List.mergeSort_perm (filteredOf a) _).nodup_iff.mpr hnd
  rw [List.pairwise_iff_forall_sublist]
  intro i j hsub
  have hle : dateKeyAt a.expenses j ≤ dateKeyAt a.expenses i := by
    have := List.pairwise_iff_forall_sublist.mp hsorted hsub
    simpa using this
  by_cases heq : dateKeyAt a.expenses i = dateKeyAt a.expenses j
  · right
    refine ⟨heq, ?_⟩
    have hne : i ≠ j := List.pairwise_iff_forall_sublist.mp hndout hsub
    rcases Nat.lt_or_ge i j with hij | hij
    · exact hij
    · exfalso
      have hji : j < i := by omega
      have hiin : i ∈ filteredOf a := by
        have : i ∈ sortedOf a := hsub.subset (List.mem_cons_self _ _)
        exact (List.mem_mergeSort).mp this
      have hjin : j ∈ filteredOf a := by
        have : j ∈ sortedOf a :=
          hsub.subset (List.mem_cons_of_mem _ (List.mem_cons_self _ _))
        exact (List.mem_mergeSort).mp this
      have hpairin : List.Sublist [j, i] (filteredOf a) :=
        pair_sublist_of_pairwise_lt hplt hjin hiin hji
      have hpairout : List.Sublist [j, i] (sortedOf a) :=
        List.pair_sublist_mergeSort htrans htotal (by simp [heq]) hpairin
      exact hne (sublist_pair_antisymm hndout hsub hpairout)
  · left; omega

theorem strLower_isEmpty (q : Str) : (strLower q).isEmpty = q.isEmpty := by
  cases q <;> rfl

/-- The filter predicate of the spec, stated as the spec words it: reject
when `recurringOnly` and the record is not recurring; otherwise accept
when the query is empty; otherwise accept iff the query matches
case-insensitively as a substring of the description or of the category
display string. -/
def acceptSpec (recurringOnly : Bool) (query : Str) (e : Expense) : Bool :=
  if recurringOnly && !e.is_recurring then false
  else if query.isEmpty then true
  else strContainsSub (strLower e.description) (strLower query) ||
    strContainsSub (strLower e.category.display) (strLower query)

theorem sourcePred_eq_acceptSpec (ro : Bool) (q : Str) (e : Expense) :
    sourcePred ro (strLower q) e = acceptSpec ro q e := by
  unfold sourcePred acceptSpec
  rw [strLower_isEmpty]

theorem filteredOf_mem (a : AppState) (i : Nat) :
    i ∈ filteredOf a ↔ ∃ h : i < a.expenses.length,
      acceptSpec a.show_recurring_only a.search_query (a.expenses.get ⟨i, h⟩) = true := by
  unfold filteredOf
  rw [List.mem_map]
  constructor
  · rintro ⟨p, hp, hpi⟩
    obtain ⟨hpe, hpred⟩ := List.mem_filter.mp hp
    have := List.mem_enum_iff_getElem?.mp hpe
    rw [List.getElem?_eq_some_iff] at this
    obtain ⟨hlt, hget⟩ := this
    rw [hpi] at hlt
    refine ⟨hlt, ?_⟩
    have hq : queryOf a = strLower a.search_query := rfl
    rw [← sourcePred_eq_acceptSpec]
    show sourcePred a.show_recurring_only (queryOf a) _ = true
    have : a.expenses.get ⟨i, hlt⟩ = p.2 := by
      rw [← hget]
      simp [hpi, List.get_eq_getElem]
    rw [this]
    exact hpred
  · rintro ⟨hlt, hacc⟩
    refine ⟨(i, a.expenses.get ⟨i, hlt⟩), ?_, rfl⟩
    apply List.mem_filter.mpr
    constructor
    · rw [List.mem_enum_iff_getElem?, List.getElem?_eq_some_iff]
      exact ⟨hlt, rfl⟩
    · show sourcePred a.show_recurring_only (strLower a.search_query)
        (a.expenses.get ⟨i, hlt⟩) = true
      rw [sourcePred_eq_acceptSpec]
      exact hacc

theorem sortedOf_mem (a : AppState) (i : Nat) :
    i ∈ sortedOf a ↔ ∃ h : i < a.expenses.length,
      acceptSpec a.show_recurring_only a.search_query (a.expenses.get ⟨i, h⟩) = true := by
  rw [← filteredOf_mem]
  exact List.mem_mergeSort

theorem importCsvGo_mem (rows : List (Except String Expense)) :
    ∀ (acc : List Expense) (next count : Nat) (e : Expense),
      e ∈ (importCsvGo rows acc next count).1 →
      e ∈ acc ∨ ∃ e0, Except.ok e0 ∈ rows ∧ e.is_recurring = e0.is_recurring ∧
        e.recurrence = e0.recurrence := by
  induction rows with
  | nil => intro acc next count e he; exact Or.inl he
  | cons row rest ih =>
    intro acc next count e he
    cases row with
    | error msg => exact Or.inl he
    | ok e0 =>
      rcases ih _ _ _ e he with h | ⟨e1, he1, hp⟩
      · rcases List.mem_append.mp h with h | h
        · exact Or.inl h
        · have : e = { e0 with id := next } := by simpa using h
          subst this
          exact Or.inr ⟨e0, List.mem_cons_self _ _, rfl, rfl⟩
      · exact Or.inr ⟨e1, List.mem_cons_of_mem _ he1, hp⟩

/-- Rows accepted before the first malformed row of an import. -/
def okVals : List (Except String Expense) → List Expense
  | [] => []
  | .ok e :: rest => e :: okVals rest
  | .error _ :: _ => []

/-- Sequential reassignment of ids starting at `n`. -/
def withIds : List Expense → Nat → List Expense
  | [], _ => []
  | e :: rest, n => { e with id := n } :: withIds rest (n + 1)

/-- The first malformed row's error, if any. -/
def firstErr : List (Except String Expense) → Option String
  | [] => none
  | .ok _ :: rest => firstErr rest
  | .error m :: _ => some m

theorem importCsvGo_spec (rows : List (Except String Expense)) :
    ∀ (acc : List Expense) (next count : Nat),
      (importCsvGo rows acc next count).1 = acc ++ withIds (okVals rows) next ∧
      (importCsvGo rows acc next count).2 =
        (match firstErr rows with
          | none => Except.ok (count + (okVals rows).length)
          | some m => Except.error m) := by
  induction rows with
  | nil => intro acc next count; simp [importCsvGo, okVals, withIds, firstErr]
  | cons row rest ih =>
    intro acc next count
    cases row with
    | error msg => simp [importCsvGo, okVals, withIds, firstErr]
    | ok e0 =>
      obtain ⟨ih1, ih2⟩ := ih (acc ++ [{ e0 with id := next }]) (next + 1) (count + 1)
      constructor
      · show (importCsvGo rest _ _ _).1 = _
        rw [ih1, List.append_assoc]
        rfl
      · show (importCsvGo rest _ _ _).2 = _
        rw [ih2]
        show _ = (match firstErr rest with
          | none => Except.ok (count + (e0 :: okVals rest).length)
          | some m => Except.error m)
        cases firstErr rest <;> simp <;> omega

theorem import_csv_spec (rows : List (Except String Expense)) (existing : List Expense) :
    (import_csv rows existing).1 = existing ++ withIds (okVals rows) (next_id existing) ∧
    (import_csv rows existing).2 =
      (match firstErr rows with
        | none => Except.ok (okVals rows).length
        | some m => Except.error m) := by
  have h := importCsvGo_spec rows existing (next_id existing) 0
  refine ⟨h.1, ?_⟩
  show (importCsvGo rows existing (next_id existing) 0).2 = _
  rw [h.2]
  cases firstErr rows <;> simp

theorem next_id_foldl (es : List Expense) :
    next_id es = ((es.map (fun e => e.id)).foldl max 0) + 1 := by
  unfold next_id
  rcases h : es.map (fun e => e.id) with _ | ⟨a, as⟩
  · rw [h]; rfl
  · rw [h, List.max?_cons', Option.getD_some, List.foldl_cons, Nat.zero_max]

/-- Sample date 2024-05-15. -/
def dA : Date := ⟨2024, 5, 15, by decide, by decide, by decide, by decide⟩

/-- Sample date 2024-12-31. -/
def dB : Date := ⟨2024, 12, 31, by decide, by decide, by decide, by decide⟩

def sampleExp : Expense := ⟨1, 1200, .Food, ("Lunch").data, dA, false, none⟩

def updExp : Expense := ⟨2, 500, .Rent, ("Rent").data, dA, false, none⟩

/-- A syntactically well-formed CSV row whose fields violate the
recurring-flag invariant: `is_recurring` set but no recurrence.  The csv
deserializer fills the two fields independently, so this row parses. -/
def badRow : Expense := ⟨5, 10, .Transport, ("Bus").data, dA, true, none⟩

def rowsC2 : List (Except String Expense) :=
  [Except.ok sampleExp, Except.error ("boom")]

def appC2 : AppState := ⟨[], 0, [], [], false⟩

def appC3 : AppState := ⟨[], 1, [], [], false⟩

def appC10 : AppState := ⟨[sampleExp], 0, [], [], false⟩

/-- C1 (amended): the `isRecurring == recurrence.isSome` invariant holds
for every record built by `FormState::to_expense` (covering form add and
form edit), is preserved by `add_expense`, `update_expense` and
`generate_recurring_expenses`, and is preserved by `import_csv` provided
the parsed rows themselves satisfy it — the import copies both fields from
the file unchecked, so it does not establish the invariant on its own. -/
theorem recurring_flag_iff_amended :
    (∀ (pA : Str → Option Int) (pD : Str → Option Date) (f : FormState)
      (id : Nat) (e : Expense), FormState.to_expense pA pD f id = some e →
        e.is_recurring = e.recurrence.isSome) ∧
    (∀ (a : AppState) (e : Expense),
      (∀ x ∈ a.expenses, x.is_recurring = x.recurrence.isSome) →
      e.is_recurring = e.recurrence.isSome →
      ∀ x ∈ (add_expense a e).expenses, x.is_recurring = x.recurrence.isSome) ∧
    (∀ (a : AppState) (id : Nat) (upd : Expense),
      (∀ x ∈ a.expenses, x.is_recurring = x.recurrence.isSome) →
      upd.is_recurring = upd.recurrence.isSome →
      ∀ x ∈ (update_expense a id upd).1.expenses,
        x.is_recurring = x.recurrence.isSome) ∧
    (∀ (rows : List (Except String Expense)) (existing : List Expense),
      (∀ e0, Except.ok e0 ∈ rows → e0.is_recurring = e0.recurrence.isSome) →
      (∀ x ∈ existing, x.is_recurring = x.recurrence.isSome) →
      ∀ x ∈ (import_csv rows existing).1, x.is_recurring = x.recurrence.isSome) ∧
    (∀ (es : List Expense) (today : Date),
      (∀ x ∈ es, x.is_recurring = x.recurrence.isSome) →
      ∀ x ∈ generate_recurring_expenses es today,
        x.is_recurring = x.recurrence.isSome) := by
  refine ⟨?_, ?_, ?_, ?_, ?_⟩
  · intro pA pD f id e h
    rcases hA : pA f.amount_input with _ | amount
    · simp only [FormState.to_expense, hA] at h
      exact absurd h (by simp)
    · simp only [FormState.to_expense, hA] at h
      rcases hD : pD f.date_input with _ | date
      · simp only [hD] at h
        split at h <;> exact absurd h (by simp)
      · simp only [hD] at h
        split at h
        · exact absurd h (by simp)
        · simp only [Option.some.injEq] at h
          subst h
          cases hf : f.is_recurring <;> simp [hf]
  · intro a e h1 h2 x hx
    have : x ∈ a.expenses ++ [e] := hx
    rcases List.mem_append.mp this with h | h
    · exact h1 x h
    · have : x = e := by simpa using h
      subst this; exact h2
  · intro a id upd h1 h2 x hx
    rcases hidx : a.expenses.findIdx? (fun e => e.id == id) with _ | pos
    · unfold update_expense at hx
      rw [hidx] at hx
      exact h1 x hx
    · unfold update_expense at hx
      rw [hidx] at hx
      have : x ∈ a.expenses.set pos upd := hx
      rcases List.mem_or_eq_of_mem_set this with h | h
      · exact h1 x h
      · subst h; exact h2
  · intro rows existing h1 h2 x hx
    rcases importCsvGo_mem rows existing (next_id existing) 0 x hx with h | ⟨e0, he0, ha, hb⟩
    · exact h2 x h
    · rw [ha, hb]; exact h1 e0 he0
  · intro es today h x hx
    rcases List.mem_append.mp hx with h2 | h2
    · exact h x h2
    · obtain ⟨ha, hb, _⟩ := generated_props es today x h2
      rw [ha, hb]; rfl

/-- C1 counterexample: importing a parsed row with `is_recurring = true`
and `recurrence = None` leaves a record violating the invariant in the
state, so the invariant does not hold after every import. -/
theorem recurring_flag_iff_cex :
    ¬ (∀ x ∈ (import_csv [Except.ok badRow] ([] : List Expense)).1,
        x.is_recurring = x.recurrence.isSome) := by decide

/-- C2 (amended): a malformed row aborts the import with the first
malformed row's error, performs no recompute of the filtered view and no
save, and leaves the pre-existing records unchanged as a prefix — but the
rows parsed before the malformed one remain appended to the in-memory
list (with sequentially reassigned ids). -/
theorem import_error_keeps_partial (a : AppState)
    (rows : List (Except String Expense)) (msg : String)
    (h : (import_from_csv a rows).2 = Except.error msg) :
    (import_from_csv a rows).1.expenses =
      a.expenses ++ withIds (okVals rows) (next_id a.expenses) ∧
    (import_from_csv a rows).1.filtered_indices = a.filtered_indices ∧
    (import_from_csv a rows).1.expense_table_index = a.expense_table_index ∧
    firstErr rows = some msg := by
  have hspec := import_csv_spec rows a.expenses
  unfold import_from_csv at h ⊢
  rcases hic : import_csv rows a.expenses with ⟨es2, exc⟩
  rw [hic] at h hspec
  cases exc with
  | ok n =>
    have h2 : (Except.ok n : Except String Nat) = Except.error msg := h
    exact absurd h2 (by simp)
  | error m =>
    have h2 : (Except.error m : Except String Nat) = Except.error msg := h
    have hm : m = msg := by simpa using h2
    subst hm
    refine ⟨hspec.1, rfl, rfl, ?_⟩
    rcases hfe : firstErr rows with _ | m2
    · rw [hfe] at hspec
      exact absurd hspec.2 (by simp)
    · rw [hfe] at hspec
      have h2 : Except.error (α := Nat) m = Except.error m2 := hspec.2
      simp only [Except.error.injEq] at h2
      rw [h2]

/-- C2 counterexample: with one good row before a malformed one, the
importer reports the error, yet the in-memory list is no longer what it was
before the import (the good row was appended). -/
theorem import_error_cex :
    (import_csv rowsC2 ([] : List Expense)).2 = Except.error ("boom") ∧
    (import_csv rowsC2 ([] : List Expense)).1 ≠ ([] : List Expense) :=
  ⟨rfl, by decide⟩

/-- C2 witness: the amended statement at a concrete import. -/
theorem import_error_keeps_partial_witness :
    (import_from_csv appC2 rowsC2).1.expenses =
      appC2.expenses ++ withIds (okVals rowsC2) (next_id appC2.expenses) ∧
    (import_from_csv appC2 rowsC2).1.filtered_indices = appC2.filtered_indices ∧
    (import_from_csv appC2 rowsC2).1.expense_table_index =
      appC2.expense_table_index ∧
    firstErr rowsC2 = some ("boom") :=
  import_error_keeps_partial appC2 rowsC2 ("boom") (by rfl)

/-- C3 (amended): after `update_filtered_indices`, the selection cursor
is strictly below the filtered length whenever the filtered sequence is
nonempty; when it is empty the clamp is skipped and the cursor is left
unchanged (not reset to 0). -/
theorem cursor_in_range_amended (a : AppState) :
    ((update_filtered_indices a).filtered_indices ≠ [] →
      (update_filtered_indices a).expense_table_index <
        (update_filtered_indices a).filtered_indices.length) ∧
    ((update_filtered_indices a).filtered_indices = [] →
      (update_filtered_indices a).expense_table_index = a.expense_table_index) := by
  show (sortedOf a ≠ [] →
      (if ((sortedOf a).length ≤ a.expense_table_index && !(sortedOf a).isEmpty : Bool)
        then (sortedOf a).length - 1 else a.expense_table_index) < (sortedOf a).length) ∧
    (sortedOf a = [] →
      (if ((sortedOf a).length ≤ a.expense_table_index && !(sortedOf a).isEmpty : Bool)
        then (sortedOf a).length - 1 else a.expense_table_index) = a.expense_table_index)
  constructor
  · intro hne
    have hlen : 0 < (sortedOf a).length := List.length_pos.mpr hne
    split
    · omega
    · rename_i hcond
      have hie : (sortedOf a).isEmpty = false := List.isEmpty_eq_false.mpr hne
      rw [hie] at hcond
      simp only [Bool.not_false, Bool.and_true, decide_eq_true_eq] at hcond
      omega
  · intro he
    have hie : (sortedOf a).isEmpty = true := List.isEmpty_iff.mpr he
    rw [hie]
    simp

/-- C3 counterexample: with no expenses and a stale cursor of 1, the
recompute leaves the cursor at 1 although the filtered sequence is empty,
so the cursor does not equal 0 in the empty case. -/
theorem cursor_in_range_cex :
    ¬ ((update_filtered_indices appC3).filtered_indices = [] →
        (update_filtered_indices appC3).expense_table_index = 0) := by
  have hs : sortedOf appC3 = [] := by
    show (filteredOf appC3).mergeSort _ = []
    rw [show filteredOf appC3 = [] from rfl, List.mergeSort_nil]
  intro h
  have h1 : (update_filtered_indices appC3).filtered_indices = [] := hs
  have h3 : (update_filtered_indices appC3).expense_table_index = 1 := by
    show (if ((sortedOf appC3).length ≤ appC3.expense_table_index &&
        !(sortedOf appC3).isEmpty : Bool) then (sortedOf appC3).length - 1
      else appC3.expense_table_index) = 1
    rw [hs]
    rfl
  rw [h3] at h
  exact absurd (h h1) (by decide)

/-- C4: materializing recurring expenses is idempotent — a second run of
`generate_recurring_expenses` with the same `today` adds no records. -/
theorem materialize_idempotent (es : List Expense) (today : Date) :
    generate_recurring_expenses (generate_recurring_expenses es today) today =
      generate_recurring_expenses es today :=
  generate_recurring_idem es today

/-- C5: every record generated by a materialization run is dated no later
than `today`; every occurrence date produced by the per-template loop
reaches the output; and the loop generates exactly the `next_date`
iterates that do not exceed `today`, so a date landing exactly on `today`
is included. -/
theorem materialize_dates_spec (es : List Expense) (today : Date) :
    (∀ e ∈ generatedExpenses es today, e.date.key ≤ today.key) ∧
    (∀ t ∈ es.filter (fun e => e.is_recurring && e.recurrence.isSome),
      ∀ (r : Recurrence), t.recurrence = some r →
      ∀ d ∈ genOccurrences r today (r.next_date (lastDate t es)),
        ∃ e ∈ generatedExpenses es today, e.date = d) ∧
    (∀ (r : Recurrence) (s : Date) (n : Nat),
      (nextIter r n s).key ≤ today.key →
        nextIter r n s ∈ genOccurrences r today s) := by
  refine ⟨?_, ?_, ?_⟩
  · intro e he
    exact (generated_props es today e he).2.2
  · intro t ht r hr d hd
    obtain ⟨e, he, _, hde⟩ := genFold_chain_mem es today _ [] t r ht hr d hd
    exact ⟨e, he, hde⟩
  · intro r s n h
    exact genOccurrences_complete r today s n h

/-- C6: the ids of the records generated by one materialization run form
the consecutive sequence starting at `next_id` of the pre-run records,
one per generated record across all templates; and `next_id` is the
maximum existing id plus one (1 on an empty record set). -/
theorem materialize_ids_sequential (es : List Expense) (today : Date) :
    (generatedExpenses es today).map (fun e => e.id) =
      List.range' (next_id es) (generatedExpenses es today).length ∧
    next_id es = ((es.map (fun e => e.id)).foldl max 0) + 1 := by
  refine ⟨?_, next_id_foldl es⟩
  apply genFold_ids
  rfl

/-- C7: for every recurrence frequency and every valid date, `next_date`
is strictly later than its input (in chronological `Date.key` order). -/
theorem next_date_strictly_later (r : Recurrence) (x : Date) :
    x.key < (r.next_date x).key :=
  key_next_date_gt r x

/-- C8: `Monthly` moves to month+1 (wrapping December to January of the
next year) with the day capped at 28, via `from_ymd_opt` whose failure
falls back to adding 30 days; `Yearly` moves to year+1 with the day
capped at 28, falling back to adding 365 days. -/
theorem next_date_monthly_yearly_shape (x : Date) :
    ((x.month ≠ 12 →
        (Recurrence.next_date .Monthly x).year = x.year ∧
        (Recurrence.next_date .Monthly x).month = x.month + 1 ∧
        (Recurrence.next_date .Monthly x).day = min x.day 28) ∧
      (x.month = 12 →
        (Recurrence.next_date .Monthly x).year = x.year + 1 ∧
        (Recurrence.next_date .Monthly x).month = 1 ∧
        (Recurrence.next_date .Monthly x).day = min x.day 28)) ∧
    ((x.month ≠ 12 → Recurrence.next_date .Monthly x =
        (fromYmd x.year (x.month + 1) (min x.day 28)).getD (addDays 30 x)) ∧
      (x.month = 12 → Recurrence.next_date .Monthly x =
        (fromYmd (x.year + 1) 1 (min x.day 28)).getD (addDays 30 x)) ∧
      ((Recurrence.next_date .Yearly x).year = x.year + 1 ∧
        (Recurrence.next_date .Yearly x).month = x.month ∧
        (Recurrence.next_date .Yearly x).day = min x.day 28) ∧
      Recurrence.next_date .Yearly x =
        (fromYmd (x.year + 1) x.month (min x.day 28)).getD (addDays 365 x)) := by
  refine ⟨⟨?_, ?_⟩, ?_, ?_, ?_, ?_⟩
  · intro h
    rw [next_date_monthly x h]
    exact ⟨rfl, rfl, rfl⟩
  · intro h
    rw [next_date_monthly_dec x h]
    exact ⟨rfl, rfl, rfl⟩
  · intro h
    show (if x.month = 12 then _ else _) = _
    rw [if_neg h]
  · intro h
    show (if x.month = 12 then _ else _) = _
    rw [if_pos h]
  · rw [next_date_yearly x]
    exact ⟨rfl, rfl, rfl⟩
  · rfl

/-- C9: `update_filtered_indices` selects exactly the indices of records
accepted by the spec's filter predicate, ordered by record date
descending with equal-date records keeping their original (ascending
index) order. -/
theorem update_filtered_spec (a : AppState) :
    (∀ i : Nat, i ∈ (update_filtered_indices a).filtered_indices ↔
      ∃ h : i < a.expenses.length,
        acceptSpec a.show_recurring_only a.search_query
          (a.expenses.get ⟨i, h⟩) = true) ∧
    (update_filtered_indices a).filtered_indices.Pairwise (fun i j =>
      dateKeyAt a.expenses j < dateKeyAt a.expenses i ∨
        (dateKeyAt a.expenses i = dateKeyAt a.expenses j ∧ i < j)) :=
  ⟨fun i => sortedOf_mem a i, sortedOf_pairwise a⟩

/-- C9 witness: the characterization at a concrete state. -/
theorem update_filtered_spec_witness :
    0 ∈ (update_filtered_indices appC10).filtered_indices :=
  ((update_filtered_spec appC10).1 0).mpr ⟨by decide, by decide⟩

/-- C10: updating with an id that matches no record leaves the whole
state unchanged and performs no save. -/
theorem update_expense_missing_id (a : AppState) (id : Nat) (upd : Expense)
    (h : ∀ e ∈ a.expenses, e.id ≠ id) :
    update_expense a id upd = (a, false) := by
  have hnone : a.expenses.findIdx? (fun e => e.id == id) = none := by
    rw [List.findIdx?_eq_none_iff]
    intro e he
    simpa using h e he
  unfold update_expense
  rw [hnone]

/-- C10 witness: a concrete state with one record of id 1, updated at the
absent id 99. -/
theorem update_expense_missing_id_witness :
    update_expense appC10 99 updExp = (appC10, false) :=
  update_expense_missing_id appC10 99 updExp (by decide)

end Cashflow
